import Mathlib

/-!
Shallow embedding of the tk-substancepainter repository logic that the
specification describes, together with proofs about it.

Embedded source:
* `hooks/tk-multi-publish2/basic/publish_texture_set.py`,
  `SubstancePainterTextureExportPlugin._group_texture_sequences`
* `python/tk_substancepainter/menu_generation.py`,
  `MenuGenerator` and `AppCommand`

Conventions used throughout:
* Python strings are Lean `String`s; character-level work is done on
  `List Char` (via `String.toList` / `String.mk`, which evaluate in the
  kernel).  The regex character classes `\d` and `\w` are embedded with
  their ASCII meaning (`Char.isDigit`, alphanumeric-or-underscore); on the
  ASCII file names this code deals with, this coincides with Python.
* Python callables (command callbacks) are represented by an opaque-to-us
  numeric tag `Nat`; the menu builder only stores and moves them around.
* In-place mutation of Qt menu objects is embedded as functional update of
  a tree of `MenuAction`s; a Python `dict` (insertion ordered) is embedded
  as an association list to which new keys are appended at the end.
-/

namespace TkSubstancePainter

/-! ## Texture sequence grouper

`_group_texture_sequences` (publish_texture_set.py, lines 526-544):

```python
groups = {}
for path in paths:
    filename = os.path.basename(path)
    key = re.sub(r"\.\d+(\.\w+)$", r".<UDIM>\1", filename)
    groups.setdefault(key, []).append(path)
return list(groups.values())
```
-/

/-- Python regex `\w`, ASCII fragment: letter, digit or underscore. -/
def isWordChar (c : Char) : Bool := c.isAlphanum || c == '_'

/-- After `\.` and one digit have been consumed: consume the (greedy)
remaining digits of `\d+`, then require the literal dot and a nonempty
all-word-character extension running to the end of the string
(`(\.\w+)$`).  Greedy matching with backtracking is deterministic here:
shrinking the digit run can never help, because the character after a
shorter run is a digit, not a dot. -/
def restAfterDigit : List Char → Bool
  | [] => false
  | c :: rest =>
    if c.isDigit then restAfterDigit rest
    else c == '.' && !rest.isEmpty && rest.all isWordChar

/-- Does `\d+(\.\w+)$` match the whole character list? -/
def digitsThenDotExt : List Char → Bool
  | [] => false
  | c :: rest => c.isDigit && restAfterDigit rest

/-- The replacement token `<UDIM>` inserted by the substitution. -/
def udimTag : List Char := ['<', 'U', 'D', 'I', 'M', '>']

/-- `re.sub(r"\.\d+(\.\w+)$", r".<UDIM>\1", filename)`: scan left to
right; at the first position where the (end-anchored) pattern matches,
replace the matched suffix `.<digits>.<ext>` by `.<UDIM>.<ext>`.  Because
the pattern is anchored at the end of the string, at most one
replacement ever happens. -/
def udimSub : List Char → List Char
  | [] => []
  | c :: rest =>
    if c == '.' && digitsThenDotExt rest then
      '.' :: udimTag ++ rest.dropWhile Char.isDigit
    else
      c :: udimSub rest

/-- `os.path.basename` (POSIX): the suffix after the last `'/'`. -/
def basenameChars (l : List Char) : List Char :=
  (l.reverse.takeWhile (fun c => c ≠ '/')).reverse

/-- The group key derived from one path. -/
def groupKey (p : String) : String :=
  String.mk (udimSub (basenameChars p.toList))

/-- `groups.setdefault(key, []).append(path)` on an insertion-ordered
dict embedded as an association list: append to an existing entry, or
append a fresh `(key, [path])` entry at the end. -/
def insertGroup (gs : List (String × List String)) (k p : String) :
    List (String × List String) :=
  match gs with
  | [] => [(k, [p])]
  | (k0, ps) :: rest =>
    if k0 == k then (k0, ps ++ [p]) :: rest
    else (k0, ps) :: insertGroup rest k p

/-- One iteration of the grouping loop. -/
def groupStep (gs : List (String × List String)) (p : String) :
    List (String × List String) :=
  insertGroup gs (groupKey p) p

/-- `_group_texture_sequences`: fold the loop, then `list(groups.values())`. -/
def group_texture_sequences (paths : List String) : List (List String) :=
  (paths.foldl groupStep []).map Prod.snd

/-- The keys of `paths.map groupKey` in first-seen order, skipping keys
already in `seen`.  This is a specification-side helper used to state
what the grouper returns; it is not part of the source. -/
def newKeys (seen : List String) : List String → List String
  | [] => []
  | k :: rest =>
    if k ∈ seen then newKeys seen rest
    else k :: newKeys (k :: seen) rest

/-- Derived keys of a path list in first-seen order. -/
def firstSeenKeys (paths : List String) : List String :=
  newKeys [] (paths.map groupKey)

/-! ### Structure of the substitution -/

theorem word_not_dot {e : List Char} (h : e.all isWordChar = true) :
    ('.' : Char) ∉ e := by
  intro hm
  have h2 := List.all_eq_true.mp h _ hm
  exact absurd h2 (by decide)

theorem restAfterDigit_count {l : List Char} (h : restAfterDigit l = true) :
    l.count '.' = 1 := by
  induction l with
  | nil => simp [restAfterDigit] at h
  | cons c rest ih =>
    rw [restAfterDigit] at h
    by_cases hc : c.isDigit = true
    · rw [if_pos hc] at h
      have hne : ('.' : Char) ≠ c := by
        intro he; rw [← he] at hc; exact absurd hc (by decide)
      rw [List.count_cons_of_ne hne]
      exact ih h
    · rw [if_neg hc] at h
      have h1 : (c == '.') = true := by
        cases hcc : (c == '.') with
        | true => rfl
        | false => rw [hcc] at h; simp at h
      have hc' : c = '.' := by simpa using h1
      rw [h1] at h
      have hw : rest.all isWordChar = true := by
        cases hww : rest.all isWordChar with
        | true => rfl
        | false => rw [hww] at h; simp at h
      have : rest.count '.' = 0 :=
        List.count_eq_zero_of_not_mem (word_not_dot hw)
      rw [hc', List.count_cons_self, this]

theorem digitsThenDotExt_count {l : List Char} (h : digitsThenDotExt l = true) :
    l.count '.' = 1 := by
  cases l with
  | nil => simp [digitsThenDotExt] at h
  | cons c rest =>
    rw [digitsThenDotExt, Bool.and_eq_true] at h
    have hne : ('.' : Char) ≠ c := by
      intro he; rw [← he] at h; exact absurd h.1 (by decide)
    rw [List.count_cons_of_ne hne]
    exact restAfterDigit_count h.2

theorem digitsThenDotExt_eq_false_of_two_dots {l : List Char}
    (h : 2 ≤ l.count '.') : digitsThenDotExt l = false := by
  cases hd : digitsThenDotExt l with
  | true => have := digitsThenDotExt_count hd; omega
  | false => rfl

theorem restAfterDigit_append {d e : List Char} (hd : d.all Char.isDigit = true)
    (he : e ≠ []) (hw : e.all isWordChar = true) :
    restAfterDigit (d ++ '.' :: e) = true := by
  induction d with
  | nil =>
    have he' : e.isEmpty = false := by cases e with
      | nil => exact absurd rfl he
      | cons a l => rfl
    simp [restAfterDigit, he', hw]
  | cons c d ih =>
    rw [List.all_cons, Bool.and_eq_true] at hd
    rw [List.cons_append, restAfterDigit, if_pos hd.1]
    exact ih hd.2

theorem digitsThenDotExt_append {d e : List Char} (hne : d ≠ [])
    (hd : d.all Char.isDigit = true) (he : e ≠ [])
    (hw : e.all isWordChar = true) :
    digitsThenDotExt (d ++ '.' :: e) = true := by
  cases d with
  | nil => exact absurd rfl hne
  | cons c d =>
    rw [List.all_cons, Bool.and_eq_true] at hd
    rw [List.cons_append, digitsThenDotExt, hd.1, Bool.true_and]
    exact restAfterDigit_append hd.2 he hw

theorem dropWhile_digits {d e : List Char} (hd : d.all Char.isDigit = true) :
    (d ++ '.' :: e).dropWhile Char.isDigit = '.' :: e := by
  induction d with
  | nil => simp [List.dropWhile]
  | cons c d ih =>
    rw [List.all_cons, Bool.and_eq_true] at hd
    rw [List.cons_append, List.dropWhile_cons_of_pos hd.1]
    exact ih hd.2

/-- The substitution rewrites exactly the end-anchored `.<digits>.<ext>`
suffix, leaving everything before it in place: the scan cannot fire
earlier because any earlier candidate position sees at least two dots
before the end of the string, while a match contains exactly one. -/
theorem udimSub_subst (stem d e : List Char) (hne : d ≠ [])
    (hd : d.all Char.isDigit = true) (he : e ≠ [])
    (hw : e.all isWordChar = true) :
    udimSub (stem ++ '.' :: (d ++ '.' :: e))
      = stem ++ '.' :: udimTag ++ '.' :: e := by
  induction stem with
  | nil =>
    rw [List.nil_append, List.nil_append, udimSub,
      if_pos (by rw [digitsThenDotExt_append hne hd he hw]; rfl),
      dropWhile_digits hd]
  | cons c stem ih =>
    have hcond : (c == '.' && digitsThenDotExt (stem ++ '.' :: (d ++ '.' :: e))) = false := by
      cases hcc : (c == '.') with
      | false => rfl
      | true =>
        rw [Bool.true_and]
        apply digitsThenDotExt_eq_false_of_two_dots
        rw [List.count_append, List.count_cons_self, List.count_append,
          List.count_cons_self]
        omega
    rw [List.cons_append, udimSub, if_neg (by rw [hcond]; simp), ih]
    rfl

theorem restAfterDigit_decomp {l : List Char} (h : restAfterDigit l = true) :
    ∃ d e, l = d ++ '.' :: e ∧ d.all Char.isDigit = true ∧ e ≠ [] ∧
      e.all isWordChar = true := by
  induction l with
  | nil => simp [restAfterDigit] at h
  | cons c rest ih =>
    rw [restAfterDigit] at h
    by_cases hc : c.isDigit = true
    · rw [if_pos hc] at h
      obtain ⟨d, e, hl, hd, hee, hw⟩ := ih h
      exact ⟨c :: d, e, by rw [hl, List.cons_append],
        by rw [List.all_cons, hc, hd]; rfl, hee, hw⟩
    · rw [if_neg hc] at h
      have h1 : (c == '.') = true := by
        cases hcc : (c == '.') with
        | true => rfl
        | false => rw [hcc] at h; simp at h
      have hc' : c = '.' := by simpa using h1
      rw [h1] at h
      have hre : rest.isEmpty = false := by
        cases hrr : rest.isEmpty with
        | false => rfl
        | true => rw [hrr] at h; simp at h
      have hw : rest.all isWordChar = true := by
        cases hww : rest.all isWordChar with
        | true => rfl
        | false => rw [hww] at h; simp at h
      refine ⟨[], rest, by rw [hc', List.nil_append], rfl, ?_, hw⟩
      intro hn; rw [hn] at hre; simp at hre

theorem digitsThenDotExt_decomp {l : List Char}
    (h : digitsThenDotExt l = true) :
    ∃ d e, l = d ++ '.' :: e ∧ d ≠ [] ∧ d.all Char.isDigit = true ∧ e ≠ [] ∧
      e.all isWordChar = true := by
  cases l with
  | nil => simp [digitsThenDotExt] at h
  | cons c rest =>
    rw [digitsThenDotExt, Bool.and_eq_true] at h
    obtain ⟨d, e, hl, hd, hee, hw⟩ := restAfterDigit_decomp h.2
    exact ⟨c :: d, e, by rw [hl, List.cons_append],
      by intro hn; simp at hn,
      by rw [List.all_cons, h.1, hd]; rfl, hee, hw⟩

/-- Every input is either left unchanged by the substitution, or has the
shape `a ++ "." ++ digits ++ "." ++ ext` and gets rewritten to
`a ++ ".<UDIM>." ++ ext`. -/
theorem udimSub_eq_or_decomp (l : List Char) :
    udimSub l = l ∨
    ∃ a d e, l = a ++ '.' :: (d ++ '.' :: e) ∧ d ≠ [] ∧
      d.all Char.isDigit = true ∧ e ≠ [] ∧ e.all isWordChar = true ∧
      udimSub l = a ++ '.' :: udimTag ++ '.' :: e := by
  induction l with
  | nil => left; rfl
  | cons c rest ih =>
    cases hcond : (c == '.' && digitsThenDotExt rest) with
    | false =>
      have hstep : udimSub (c :: rest) = c :: udimSub rest := by
        rw [udimSub, if_neg (by rw [hcond]; simp)]
      rcases ih with heq | ⟨a, d, e, hl, hdne, hd, hee, hw, hres⟩
      · left; rw [hstep, heq]
      · right
        exact ⟨c :: a, d, e, by rw [hl, List.cons_append], hdne, hd, hee, hw,
          by rw [hstep, hres]; simp⟩
    | true =>
      rw [Bool.and_eq_true] at hcond
      have hc : c = '.' := by simpa using hcond.1
      obtain ⟨d, e, hl, hdne, hd, hee, hw⟩ := digitsThenDotExt_decomp hcond.2
      right
      subst hc hl
      refine ⟨[], d, e, by rw [List.nil_append], hdne, hd, hee, hw, ?_⟩
      simpa using udimSub_subst [] d e hdne hd hee hw

theorem udimSub_of_no_dot {l : List Char} (h : ('.' : Char) ∉ l) :
    udimSub l = l := by
  induction l with
  | nil => rfl
  | cons c rest ih =>
    have hc : (c == '.') = false := by
      cases hcc : (c == '.') with
      | false => rfl
      | true =>
        have : c = '.' := by simpa using hcc
        exact absurd (this ▸ List.mem_cons_self c rest) h
    rw [udimSub, if_neg (by rw [hc]; simp),
      ih (fun hm => h (List.mem_cons_of_mem c hm))]

/-- A string of the rewritten shape `a ++ ".<UDIM>." ++ ext` is a fixed
point of the substitution. -/
theorem udimSub_fixed_shape (a e : List Char) (hw : e.all isWordChar = true) :
    udimSub (a ++ '.' :: udimTag ++ '.' :: e)
      = a ++ '.' :: udimTag ++ '.' :: e := by
  have hdte : digitsThenDotExt e = false := by
    cases hd : digitsThenDotExt e with
    | false => rfl
    | true =>
      have h1 := digitsThenDotExt_count hd
      have h0 : e.count '.' = 0 :=
        List.count_eq_zero_of_not_mem (word_not_dot hw)
      omega
  have h2 : udimSub ('.' :: e) = '.' :: e := by
    show (if ('.' == '.' && digitsThenDotExt e) = true then
        '.' :: udimTag ++ e.dropWhile Char.isDigit
      else '.' :: udimSub e) = '.' :: e
    rw [hdte]
    simp [udimSub_of_no_dot (word_not_dot hw)]
  have h1 : udimSub ('.' :: udimTag ++ '.' :: e)
      = '.' :: udimTag ++ udimSub ('.' :: e) := rfl
  induction a with
  | nil => rw [List.nil_append, h1, h2]
  | cons c a ih =>
    have hcond : (c == '.' && digitsThenDotExt (a ++ '.' :: udimTag ++ '.' :: e)) = false := by
      cases hcc : (c == '.') with
      | false => rfl
      | true =>
        rw [Bool.true_and]
        apply digitsThenDotExt_eq_false_of_two_dots
        rw [List.count_append, List.count_append, List.count_cons_self,
          List.count_cons_self]
        omega
    have hstep : udimSub (c :: (a ++ '.' :: udimTag ++ '.' :: e))
        = c :: udimSub (a ++ '.' :: udimTag ++ '.' :: e) := by
      show (if (c == '.' && digitsThenDotExt (a ++ '.' :: udimTag ++ '.' :: e)) = true then
          '.' :: udimTag ++ (a ++ '.' :: udimTag ++ '.' :: e).dropWhile Char.isDigit
        else c :: udimSub (a ++ '.' :: udimTag ++ '.' :: e))
        = c :: udimSub (a ++ '.' :: udimTag ++ '.' :: e)
      rw [hcond]
      simp
    simp only [List.cons_append, List.append_assoc] at hstep ih ⊢
    rw [hstep, ih]

/-- The substitution is idempotent. -/
theorem udimSub_idem (l : List Char) : udimSub (udimSub l) = udimSub l := by
  rcases udimSub_eq_or_decomp l with h | ⟨a, d, e, _, _, _, _, hw, hres⟩
  · rw [h]; exact h
  · rw [hres]; exact udimSub_fixed_shape a e hw

example : groupKey "T_Base_Color.1001.exr" = "T_Base_Color.<UDIM>.exr" := rfl
example : groupKey "T_Roughness.exr" = "T_Roughness.exr" := rfl
example : groupKey "dir/T.1001.1002.exr" = "T.1001.<UDIM>.exr" := rfl
example :
    group_texture_sequences
      ["T_Base_Color.1001.exr", "T_Base_Color.1002.exr", "T_Roughness.exr"]
    = [["T_Base_Color.1001.exr", "T_Base_Color.1002.exr"], ["T_Roughness.exr"]] := rfl

/-! ### Characterization of the grouping loop -/

/-- Specification helper: every existing group extended with the matching
paths of a further batch, in input order. -/
def extendGroups (paths : List String) (gs : List (String × List String)) :
    List (String × List String) :=
  gs.map (fun kv => (kv.1, kv.2 ++ paths.filter (fun p => groupKey p == kv.1)))

/-- Specification helper: the groups for keys not seen yet, in first-seen
key order, each holding all matching paths in input order. -/
def freshGroups (seen : List String) (paths : List String) :
    List (String × List String) :=
  (newKeys seen (paths.map groupKey)).map
    (fun k => (k, paths.filter (fun p => groupKey p == k)))

theorem newKeys_cons (seen : List String) (k : String) (rest : List String) :
    newKeys seen (k :: rest)
      = if k ∈ seen then newKeys seen rest else k :: newKeys (k :: seen) rest :=
  rfl

theorem insertGroup_cons (kv : String × List String)
    (rest : List (String × List String)) (k p : String) :
    insertGroup (kv :: rest) k p
      = if kv.1 == k then (kv.1, kv.2 ++ [p]) :: rest
        else (kv.1, kv.2) :: insertGroup rest k p :=
  rfl

theorem map_upd_id {gs : List (String × List String)} {k : String}
    {p : String} (h : k ∉ gs.map Prod.fst) :
    gs.map (fun kv => if kv.1 = k then (kv.1, kv.2 ++ [p]) else kv) = gs := by
  induction gs with
  | nil => rfl
  | cons kv rest ih =>
    simp only [List.map_cons, List.mem_cons, not_or] at h
    rw [List.map_cons, if_neg (fun he => h.1 he.symm), ih h.2]

theorem insertGroup_of_mem {gs : List (String × List String)} {k p : String}
    (hnd : (gs.map Prod.fst).Nodup) (hk : k ∈ gs.map Prod.fst) :
    insertGroup gs k p
      = gs.map (fun kv => if kv.1 = k then (kv.1, kv.2 ++ [p]) else kv) := by
  induction gs with
  | nil => simp at hk
  | cons kv rest ih =>
    rw [List.map_cons] at hnd
    rw [List.map_cons] at hk
    rw [insertGroup_cons, List.map_cons]
    cases hb : (kv.1 == k) with
    | true =>
      have he : kv.1 = k := by simpa using hb
      have hnotin : k ∉ rest.map Prod.fst := fun hmem =>
        (List.nodup_cons.mp hnd).1 (he ▸ hmem)
      rw [if_pos he, map_upd_id hnotin]
      simp
    | false =>
      have hne : kv.1 ≠ k := by simpa using hb
      have hk' : k ∈ rest.map Prod.fst := by
        rcases List.mem_cons.mp hk with h | h
        · exact absurd h.symm hne
        · exact h
      rw [if_neg hne, ih (List.nodup_cons.mp hnd).2 hk']
      simp

theorem insertGroup_of_not_mem {gs : List (String × List String)} {k p : String}
    (hk : k ∉ gs.map Prod.fst) :
    insertGroup gs k p = gs ++ [(k, [p])] := by
  induction gs with
  | nil => rfl
  | cons kv rest ih =>
    simp only [List.map_cons, List.mem_cons, not_or] at hk
    have hb : (kv.1 == k) = false := by
      cases hbb : (kv.1 == k) with
      | false => rfl
      | true =>
        have he : kv.1 = k := by simpa using hbb
        exact absurd he.symm hk.1
    rw [insertGroup_cons, hb, List.cons_append]
    simp only [Bool.false_eq_true, if_false]
    rw [ih hk.2]

theorem keys_map_upd {gs : List (String × List String)} {k p : String} :
    (gs.map (fun kv => if kv.1 = k then (kv.1, kv.2 ++ [p]) else kv)).map Prod.fst
      = gs.map Prod.fst := by
  rw [List.map_map]
  apply List.map_congr_left
  intro kv _
  by_cases h : kv.1 = k <;> simp [h]

theorem newKeys_congr (s1 s2 : List String)
    (h : ∀ x, x ∈ s1 ↔ x ∈ s2) :
    ∀ l, newKeys s1 l = newKeys s2 l := by
  intro l
  induction l generalizing s1 s2 with
  | nil => rfl
  | cons k rest ih =>
    rw [newKeys_cons, newKeys_cons]
    by_cases hm : k ∈ s1
    · rw [if_pos hm, if_pos ((h k).mp hm), ih s1 s2 h]
    · rw [if_neg hm, if_neg (fun hc => hm ((h k).mpr hc)),
        ih (k :: s1) (k :: s2) (fun x => by simp only [List.mem_cons, h x])]

theorem mem_newKeys {x : String} :
    ∀ {l seen : List String}, x ∈ newKeys seen l ↔ (x ∈ l ∧ x ∉ seen) := by
  intro l
  induction l with
  | nil => intro seen; simp [newKeys]
  | cons k rest ih =>
    intro seen
    rw [newKeys_cons]
    by_cases hm : k ∈ seen
    · rw [if_pos hm, ih]
      constructor
      · exact fun ⟨h1, h2⟩ => ⟨List.mem_cons.mpr (Or.inr h1), h2⟩
      · rintro ⟨hx, h2⟩
        rcases List.mem_cons.mp hx with he | hx'
        · exact absurd (he ▸ hm) h2
        · exact ⟨hx', h2⟩
    · rw [if_neg hm]
      constructor
      · intro hx
        rcases List.mem_cons.mp hx with he | hx'
        · exact ⟨List.mem_cons.mpr (Or.inl he), he ▸ hm⟩
        · have h3 := ih.mp hx'
          exact ⟨List.mem_cons.mpr (Or.inr h3.1),
            fun hc => h3.2 (List.mem_cons.mpr (Or.inr hc))⟩
      · rintro ⟨hx, hns⟩
        rcases List.mem_cons.mp hx with he | hx'
        · exact List.mem_cons.mpr (Or.inl he)
        · by_cases he : x = k
          · exact List.mem_cons.mpr (Or.inl he)
          · exact List.mem_cons.mpr (Or.inr (ih.mpr ⟨hx', fun hc =>
              (List.mem_cons.mp hc).elim he hns⟩))

theorem newKeys_nodup : ∀ (l seen : List String), (newKeys seen l).Nodup := by
  intro l
  induction l with
  | nil => intro seen; exact List.nodup_nil
  | cons k rest ih =>
    intro seen
    rw [newKeys_cons]
    by_cases hm : k ∈ seen
    · rw [if_pos hm]; exact ih seen
    · rw [if_neg hm]
      refine List.nodup_cons.mpr ⟨fun hc => ?_, ih (k :: seen)⟩
      exact (mem_newKeys.mp hc).2 (List.mem_cons_self k seen)

/-- The grouping loop, characterized: starting from groups `gs` (with
distinct keys), folding a batch of paths extends each existing group with
its matching paths and appends one fresh group per new key, in
first-seen key order. -/
theorem foldl_groupStep :
    ∀ (paths : List String) (gs : List (String × List String)),
      (gs.map Prod.fst).Nodup →
      paths.foldl groupStep gs
        = extendGroups paths gs ++ freshGroups (gs.map Prod.fst) paths := by
  intro paths
  induction paths with
  | nil =>
    intro gs hnd
    simp [extendGroups, freshGroups, newKeys]
  | cons p rest ih =>
    intro gs hnd
    rw [List.foldl_cons]
    show rest.foldl groupStep (insertGroup gs (groupKey p) p) = _
    by_cases hk : groupKey p ∈ gs.map Prod.fst
    · -- the key already has a group: that group is extended in place
      rw [insertGroup_of_mem hnd hk,
        ih _ (by rw [keys_map_upd]; exact hnd)]
      have hA : extendGroups rest
          (gs.map (fun kv => if kv.1 = groupKey p then (kv.1, kv.2 ++ [p]) else kv))
          = extendGroups (p :: rest) gs := by
        rw [extendGroups, extendGroups, List.map_map]
        apply List.map_congr_left
        intro kv _
        by_cases he : kv.1 = groupKey p
        · simp only [Function.comp, if_pos he, List.filter_cons]
          rw [if_pos (by rw [he]; simp), List.append_assoc]
          rfl
        · simp only [Function.comp, if_neg he, List.filter_cons]
          rw [if_neg (by simpa using fun hc => he hc.symm)]
      have hB : freshGroups
          ((gs.map (fun kv => if kv.1 = groupKey p then (kv.1, kv.2 ++ [p]) else kv)).map Prod.fst)
          rest = freshGroups (gs.map Prod.fst) (p :: rest) := by
        rw [keys_map_upd, freshGroups, freshGroups, List.map_cons,
          newKeys_cons, if_pos hk]
        apply List.map_congr_left
        intro k' hk'
        have hne : groupKey p ≠ k' := fun he =>
          (mem_newKeys.mp hk').2 (he ▸ hk)
        rw [List.filter_cons, if_neg (by simpa using fun hc => hne hc)]
      rw [hA, hB]
    · -- a fresh key: a new singleton group is appended at the end
      rw [insertGroup_of_not_mem hk]
      have hnd' : ((gs ++ [(groupKey p, [p])]).map Prod.fst).Nodup := by
        rw [List.map_append]
        refine List.Nodup.append hnd (by simp) ?_
        intro x hx hx'
        simp only [List.map_cons, List.map_nil, List.mem_singleton] at hx'
        exact hk (hx' ▸ hx)
      rw [ih _ hnd']
      have hA : extendGroups rest (gs ++ [(groupKey p, [p])])
          = extendGroups (p :: rest) gs
            ++ [(groupKey p, (p :: rest).filter (fun q => groupKey q == groupKey p))] := by
        rw [extendGroups, extendGroups, List.map_append]
        congr 1
        · apply List.map_congr_left
          intro kv hkv
          have hne : kv.1 ≠ groupKey p := fun he =>
            hk (he ▸ List.mem_map_of_mem Prod.fst hkv)
          rw [List.filter_cons, if_neg (by simpa using fun hc => hne hc.symm)]
        · rw [List.map_cons, List.map_nil, List.filter_cons,
            if_pos (by simp)]
          rfl
      have hB : freshGroups ((gs ++ [(groupKey p, [p])]).map Prod.fst) rest
          = (newKeys (groupKey p :: gs.map Prod.fst) (rest.map groupKey)).map
              (fun k => (k, (p :: rest).filter (fun q => groupKey q == k))) := by
        rw [freshGroups, List.map_append]
        simp only [List.map_cons, List.map_nil]
        rw [newKeys_congr (gs.map Prod.fst ++ [groupKey p])
            (groupKey p :: gs.map Prod.fst)
            (fun x => by simp [or_comm]) (rest.map groupKey)]
        apply List.map_congr_left
        intro k' hk'
        have hne : groupKey p ≠ k' := fun he =>
          (mem_newKeys.mp hk').2 (he ▸ List.mem_cons_self _ _)
        rw [List.filter_cons, if_neg (by simpa using fun hc => hne hc)]
      rw [hA, hB, freshGroups, List.map_cons, newKeys_cons, if_neg hk,
        List.map_cons, List.append_assoc, List.singleton_append]

/-- `_group_texture_sequences`, closed form: one group per first-seen
derived key, each group being the input filtered to that key. -/
theorem group_characterization (paths : List String) :
    group_texture_sequences paths
      = (firstSeenKeys paths).map
          (fun k => paths.filter (fun p => groupKey p == k)) := by
  rw [group_texture_sequences, foldl_groupStep paths [] List.nodup_nil]
  rw [extendGroups, freshGroups, firstSeenKeys]
  simp [List.map_map, Function.comp]

/-! ### Counting lemmas for the grouper -/

theorem firstSeenKeys_nodup (paths : List String) :
    (firstSeenKeys paths).Nodup :=
  newKeys_nodup _ _

theorem count_filter_key (paths : List String) (a k : String) :
    (paths.filter (fun p => groupKey p == k)).count a
      = if groupKey a = k then paths.count a else 0 := by
  by_cases h : groupKey a = k
  · rw [if_pos h]
    exact List.count_filter (by simp [h])
  · rw [if_neg h]
    refine List.count_eq_zero_of_not_mem (fun hm => ?_)
    exact h (by simpa using (List.mem_filter.mp hm).2)

theorem sum_map_ite (k0 : String) (c : Nat) :
    ∀ keys : List String, keys.Nodup →
      (keys.map (fun k => if k0 = k then c else 0)).sum
        = if k0 ∈ keys then c else 0 := by
  intro keys
  induction keys with
  | nil => intro _; simp
  | cons k rest ih =>
    intro hnd
    rw [List.map_cons, List.sum_cons, ih (List.nodup_cons.mp hnd).2]
    by_cases h : k0 = k
    · subst h
      rw [if_pos rfl, if_pos (List.mem_cons_self k0 rest),
        if_neg (List.nodup_cons.mp hnd).1]
      omega
    · rw [if_neg h]
      by_cases hm : k0 ∈ rest
      · rw [if_pos hm, if_pos (List.mem_cons.mpr (Or.inr hm))]
        omega
      · rw [if_neg hm, if_neg (fun hc =>
          (List.mem_cons.mp hc).elim h hm)]

/-! ### Claims about the texture sequence grouper -/

/-- C2: the grouper maps each path to a key by taking the final path
component and replacing one trailing `.<digits>.<ext>` occurrence with
`.<UDIM>.<ext>`; paths sharing a key form one group, groups are returned
in first-seen key order with members in first-seen input order; and on
`["T_Base_Color.1001.exr", "T_Base_Color.1002.exr", "T_Roughness.exr"]`
it returns
`[["T_Base_Color.1001.exr", "T_Base_Color.1002.exr"], ["T_Roughness.exr"]]`. -/
theorem claim_C2 :
    (∀ paths : List String,
      group_texture_sequences paths
        = (firstSeenKeys paths).map
            (fun k => paths.filter (fun p => groupKey p == k)))
    ∧ (∀ stem d e : List Char, d ≠ [] → d.all Char.isDigit = true →
        e ≠ [] → e.all isWordChar = true →
        udimSub (stem ++ '.' :: (d ++ '.' :: e))
          = stem ++ '.' :: udimTag ++ '.' :: e)
    ∧ group_texture_sequences
        ["T_Base_Color.1001.exr", "T_Base_Color.1002.exr", "T_Roughness.exr"]
      = [["T_Base_Color.1001.exr", "T_Base_Color.1002.exr"], ["T_Roughness.exr"]] :=
  ⟨group_characterization, udimSub_subst, rfl⟩

/-- Witness for C2: the key substitution evaluated at the spec's example
pieces `Base_Color`, `1001`, `exr`. -/
theorem claim_C2_witness :
    udimSub ("Base_Color".toList ++ '.' :: ("1001".toList ++ '.' :: "exr".toList))
      = "Base_Color".toList ++ '.' :: udimTag ++ '.' :: "exr".toList :=
  claim_C2.2.1 "Base_Color".toList "1001".toList "exr".toList
    (by decide) (by decide) (by decide) (by decide)

/-- C8 counterexample: two paths in different directories share the same
final component `T.exr`, which has no numeric tile suffix; they derive the
same key and are grouped together, so neither forms its own singleton
group. -/
theorem claim_C8_counterexample :
    group_texture_sequences ["a/T.exr", "b/T.exr"] = [["a/T.exr", "b/T.exr"]]
    ∧ ["a/T.exr"] ∉ group_texture_sequences ["a/T.exr", "b/T.exr"] := by
  constructor
  · rfl
  · decide

/-- C8 (amended): a final component with no trailing `.<digits>.<ext>`
suffix derives a key equal to itself, unchanged; and a path forms its own
singleton group provided no other input position derives the same key
(i.e. the input filtered to that key is exactly that one path). -/
theorem claim_C8_amended :
    (∀ f : List Char,
      (¬ ∃ a d e, f = a ++ '.' :: (d ++ '.' :: e) ∧ d ≠ [] ∧
        d.all Char.isDigit = true ∧ e ≠ [] ∧ e.all isWordChar = true) →
      udimSub f = f)
    ∧ (∀ (paths : List String) (p : String), p ∈ paths →
        paths.filter (fun q => groupKey q == groupKey p) = [p] →
        [p] ∈ group_texture_sequences paths) := by
  constructor
  · intro f hno
    rcases udimSub_eq_or_decomp f with h | ⟨a, d, e, hf, hdne, hd, hee, hw, _⟩
    · exact h
    · exact absurd ⟨a, d, e, hf, hdne, hd, hee, hw⟩ hno
  · intro paths p hp hfil
    rw [group_characterization]
    have hkmem : groupKey p ∈ firstSeenKeys paths :=
      mem_newKeys.mpr ⟨List.mem_map_of_mem groupKey hp, by simp⟩
    exact hfil ▸ List.mem_map.mpr ⟨groupKey p, hkmem, rfl⟩

/-- Witness for C8 (amended), at the filename `T.exr` (key unchanged) and
the one-element path list `["T.exr"]` (its own singleton group). -/
theorem claim_C8_amended_witness :
    udimSub "T.exr".toList = "T.exr".toList
    ∧ ["T.exr"] ∈ group_texture_sequences ["T.exr"] :=
  ⟨claim_C8_amended.1 "T.exr".toList
      (fun ⟨a, d, e, hf, hdne, _, _, _⟩ => by
        have hm : ('.' : Char) ∈ a ++ '.' :: (d ++ '.' :: e) := by simp
        rw [← hf] at hm
        have hc : ("T.exr".toList.count '.') = 1 := rfl
        rw [hf] at hc
        rw [List.count_append, List.count_cons_self, List.count_append,
          List.count_cons_self] at hc
        have hd0 : 0 < d.length := List.length_pos.mpr hdne
        omega),
    claim_C8_amended.2 ["T.exr"] "T.exr" (by decide) (by decide)⟩

/-- C9: key derivation is idempotent — applying the substitution to an
already-derived key leaves it unchanged — and consequently grouping the
same path list twice yields identical output both times. -/
theorem claim_C9 :
    (∀ f : List Char, udimSub (udimSub f) = udimSub f)
    ∧ (∀ paths : List String,
        group_texture_sequences paths = group_texture_sequences paths) :=
  ⟨udimSub_idem, fun _ => rfl⟩

/-- C10: concatenating the output groups in order is a permutation of the
input (each path occurs exactly as often as in the input; members are the
original paths, not keys), and every group is a sublist of the input,
keeping relative input order. -/
theorem claim_C10 :
    ∀ paths : List String,
      (group_texture_sequences paths).flatten.Perm paths
      ∧ ∀ g ∈ group_texture_sequences paths, g.Sublist paths := by
  intro paths
  constructor
  · rw [group_characterization]
    refine List.perm_iff_count.mpr (fun a => ?_)
    rw [List.count_flatten, List.map_map]
    have hmap : (firstSeenKeys paths).map
        (List.count a ∘ fun k => paths.filter (fun p => groupKey p == k))
        = (firstSeenKeys paths).map
            (fun k => if groupKey a = k then paths.count a else 0) := by
      apply List.map_congr_left
      intro k _
      exact count_filter_key paths a k
    rw [hmap, sum_map_ite (groupKey a) (paths.count a) (firstSeenKeys paths)
      (firstSeenKeys_nodup paths)]
    by_cases hm : groupKey a ∈ firstSeenKeys paths
    · rw [if_pos hm]
    · rw [if_neg hm]
      by_cases hp : a ∈ paths
      · exact absurd (mem_newKeys.mpr ⟨List.mem_map_of_mem groupKey hp, by simp⟩) hm
      · exact (List.count_eq_zero_of_not_mem hp).symm
  · intro g hg
    rw [group_characterization] at hg
    obtain ⟨k, _, hk⟩ := List.mem_map.mp hg
    exact hk ▸ List.filter_sublist paths

/-- Witness for C10 at a concrete mixed path list. -/
theorem claim_C10_witness :
    (group_texture_sequences ["dir/T.1001.exr", "T.1002.exr", "T.png"]).flatten.Perm
      ["dir/T.1001.exr", "T.1002.exr", "T.png"]
    ∧ ["dir/T.1001.exr", "T.1002.exr"].Sublist
        ["dir/T.1001.exr", "T.1002.exr", "T.png"] :=
  ⟨(claim_C10 _).1, (claim_C10 _).2 ["dir/T.1001.exr", "T.1002.exr"] (by decide)⟩

/-! ## Menu generation

`MenuGenerator` / `AppCommand` (menu_generation.py).  A Qt menu is
embedded as a `List MenuAction`; `QMenu.addAction` / `addMenu` append at
the end, a separator is an action with empty text, and a submenu's
`menuAction` carries the submenu title as its text.  QAction styling
(tooltip, enabled state) is not tracked: the claims under study only
concern the tree structure, labels and callbacks. -/

/-- A ShotGrid app object as the menu code sees it: `display_name` plus
an object identity (`engine.apps` lookup compares object identity). -/
structure SgApp where
  display_name : String
  objId : Nat
deriving DecidableEq

/-- The `properties` dict of a registered command: optional owning app,
optional `"type"` entry, optional tooltip. -/
structure Properties where
  app : Option SgApp
  cmdType : Option String
  tooltip : Option String
deriving DecidableEq

/-- One value of `engine.commands`: a callback and its properties. -/
structure CmdDetails where
  callback : Nat
  properties : Properties
deriving DecidableEq

/-- One entry of the `menu_favourites` setting. -/
structure Fav where
  app_instance : String
  name : String
deriving DecidableEq

/-- `AppCommand.__init__`: name, properties, callback, and the mutable
`favourite` flag (initially false). -/
structure AppCommand where
  name : String
  properties : Properties
  callback : Nat
  favourite : Bool
deriving DecidableEq

/-- The engine state the menu generator reads: `engine.commands` (an
insertion-ordered dict), `engine.apps` (instance name to app object
identity), the `menu_favourites` setting, the context display string and
whether the context has filesystem locations. -/
structure EngineModel where
  commands : List (String × CmdDetails)
  apps : List (String × Nat)
  menu_favourites : List Fav
  contextName : String
  hasFilesystemLocations : Bool

/-- One Qt menu entry: a separator, a plain action (label + callback) or
a submenu (title + its own entries). -/
inductive MenuAction where
  | divider : MenuAction
  | leaf (label : String) (callback : Nat) : MenuAction
  | submenu (label : String) (actions : List MenuAction) : MenuAction

/-- `QAction.text()`: a separator has empty text, a submenu's menu action
carries the submenu title. -/
def actionText : MenuAction → String
  | MenuAction.divider => ""
  | MenuAction.leaf l _ => l
  | MenuAction.submenu l _ => l

/-- Python `str.split("/")` on the character level: split at every `'/'`,
keeping empty pieces; the empty string yields one empty piece. -/
def splitSlash : List Char → List (List Char)
  | [] => [[]]
  | c :: rest =>
    match splitSlash rest with
    | [] => [[]]
    | p :: ps => if c = '/' then [] :: p :: ps else (c :: p) :: ps

/-- `name.split("/")` as a list of strings. -/
def pySplit (s : String) : List String :=
  (splitSlash s.toList).map String.mk

example : pySplit "Publish/Textures" = ["Publish", "Textures"] := rfl
example : pySplit "" = [""] := rfl
example : pySplit "A/" = ["A", ""] := rfl

/-- `AppCommand._find_sub_menu_item`: take the first action whose text
equals `label` and return its `menu()`; in Qt that is the submenu for a
submenu action and `None` for a plain action, and the caller only uses
the result when it is an actual submenu. -/
def findSubMenu (menu : List MenuAction) (label : String) :
    Option (List MenuAction) :=
  match menu.find? (fun a => actionText a == label) with
  | some (MenuAction.submenu _ acts) => some acts
  | _ => none

/-- Replace the entries of the first action whose text equals `label`
(which the caller has checked to be a submenu) by `newActs`; embeds the
in-place mutation of the submenu found by `_find_sub_menu_item`. -/
def setFirstSub (label : String) (newActs : List MenuAction) :
    List MenuAction → List MenuAction
  | [] => []
  | a :: rest =>
    if actionText a == label then
      (match a with
        | MenuAction.submenu l _ => MenuAction.submenu l newActs
        | other => other) :: rest
    else a :: setFirstSub label newActs rest

/-- `AppCommand.add_command_to_menu`, on the already-split name: walk all
segments but the last, descending into the first text-matching submenu
when one exists and appending a fresh submenu otherwise, then append the
leaf action for the last segment. -/
def addToMenu : List String → Nat → List MenuAction → List MenuAction
  | [], _, menu => menu
  | [label], cb, menu => menu ++ [MenuAction.leaf label cb]
  | label :: next :: rest, cb, menu =>
    match findSubMenu menu label with
    | some acts => setFirstSub label (addToMenu (next :: rest) cb acts) menu
    | none => menu ++ [MenuAction.submenu label (addToMenu (next :: rest) cb [])]

/-- `AppCommand.add_command_to_menu` for a command. -/
def add_command_to_menu (cmd : AppCommand) (menu : List MenuAction) :
    List MenuAction :=
  addToMenu (pySplit cmd.name) cmd.callback menu

/-- `AppCommand.get_app_name`. -/
def getAppName (c : AppCommand) : Option String :=
  c.properties.app.map SgApp.display_name

/-- `AppCommand.get_app_instance_name`: reverse lookup of the owning app
object in `engine.apps`, first match wins, `None` when the command has no
app or the app is not registered. -/
def getAppInstanceName (apps : List (String × Nat)) (c : AppCommand) :
    Option String :=
  match c.properties.app with
  | none => none
  | some a => (apps.find? (fun kv => kv.2 == a.objId)).map Prod.fst

/-- `AppCommand.get_type`: `properties.get("type", "default")`. -/
def getType (c : AppCommand) : String :=
  c.properties.cmdType.getD "default"

/-! ### Stable sort by a string key

Python's `list.sort(key=...)` is a stable sort whose string comparison is
lexicographic on code points; it is embedded as a stable insertion sort
over an explicit code-point comparison. -/

/-- Lexicographic code-point comparison of character lists (Python `<=`
on strings, ASCII-agnostic). -/
def charListLe : List Char → List Char → Bool
  | [], _ => true
  | _ :: _, [] => false
  | a :: as, b :: bs =>
    if a.toNat < b.toNat then true
    else if b.toNat < a.toNat then false
    else charListLe as bs

/-- Python string `<=`. -/
def pyStrLe (a b : String) : Bool := charListLe a.toList b.toList

/-- Stable insert: the new element goes before the first strictly-later
position, and before nothing it is `<=`-after. -/
def insertSortedBy {α : Type} (key : α → String) (c : α) :
    List α → List α
  | [] => [c]
  | d :: ds =>
    if pyStrLe (key c) (key d) then c :: d :: ds
    else d :: insertSortedBy key c ds

/-- Stable insertion sort by a string key (`list.sort(key=...)`). -/
def sortBy {α : Type} (key : α → String) : List α → List α
  | [] => []
  | c :: cs => insertSortedBy key c (sortBy key cs)

/-! ### MenuGenerator -/

/-- `MenuGenerator._add_context_menu` body: the context submenu entries
("Jump to ShotGrid", optionally "Jump to File System", then a divider).
The built-in callbacks carry tag 0. -/
def contextMenuActions (e : EngineModel) : List MenuAction :=
  MenuAction.leaf "Jump to ShotGrid" 0 ::
    (if e.hasFilesystemLocations then [MenuAction.leaf "Jump to File System" 0]
     else [])
    ++ [MenuAction.divider]

/-- `setup_menu_items` lines 81-86: one `AppCommand` per engine command
(favourite flag false), sorted by name. -/
def buildMenuItems (cmds : List (String × CmdDetails)) : List AppCommand :=
  sortBy AppCommand.name
    (cmds.map (fun p => AppCommand.mk p.1 p.2.properties p.2.callback false))

/-- Set the `favourite` flag. -/
def markFavourite (c : AppCommand) : AppCommand :=
  AppCommand.mk c.name c.properties c.callback true

/-- The match test of `_add_favourite`:
`cmd.get_app_instance_name() == app_instance_name and cmd.name == menu_name`. -/
def matchesFav (apps : List (String × Nat)) (fav : Fav) (c : AppCommand) :
    Bool :=
  (getAppInstanceName apps c == some fav.app_instance) && (c.name == fav.name)

/-- One step of the `_add_favourite` scan: a matching command is attached
to the root menu and its favourite flag is set; every command is carried
over into the updated item list. -/
def favStep (apps : List (String × Nat)) (fav : Fav)
    (st : List MenuAction × List AppCommand) (cmd : AppCommand) :
    List MenuAction × List AppCommand :=
  if matchesFav apps fav cmd then
    (add_command_to_menu cmd st.1, st.2 ++ [markFavourite cmd])
  else (st.1, st.2 ++ [cmd])

/-- `MenuGenerator._add_favourite`: scan all menu items (no early exit in
the source), attaching every match to the root and marking it. -/
def _add_favourite (apps : List (String × Nat)) (fav : Fav)
    (st : List MenuAction × List AppCommand) :
    List MenuAction × List AppCommand :=
  st.2.foldl (favStep apps fav) (st.1, [])

/-- The favourites loop of `setup_menu_items` (lines 89-90). -/
def addFavourites (e : EngineModel) (root : List MenuAction)
    (items : List AppCommand) : List MenuAction × List AppCommand :=
  e.menu_favourites.foldl (fun st f => _add_favourite e.apps f st) (root, items)

/-- Attaching a command to the context submenu: `self._context_menu` is
the submenu object created first, i.e. the submenu at position 0 of the
root menu. -/
def addToContextMenu (root : List MenuAction) (cmd : AppCommand) :
    List MenuAction :=
  match root with
  | MenuAction.submenu l acts :: rest =>
      MenuAction.submenu l (add_command_to_menu cmd acts) :: rest
  | other => other

/-- The context-command half of `_add_app_menus`' loop: commands whose
type is `"context_menu"` are attached to the context submenu, in item
order. -/
def addContextCommands (root : List MenuAction) (items : List AppCommand) :
    List MenuAction :=
  items.foldl (fun r cmd =>
    if getType cmd == "context_menu" then addToContextMenu r cmd else r) root

/-- Group label: the owning app's display name, else "Other Items". -/
def appGroupName (c : AppCommand) : String :=
  (getAppName c).getD "Other Items"

/-- `commands_by_app[app_name].append(cmd)` with `setdefault`-style entry
creation, on an insertion-ordered dict embedded as an association list. -/
def insertByApp (m : List (String × List AppCommand)) (k : String)
    (c : AppCommand) : List (String × List AppCommand) :=
  match m with
  | [] => [(k, [c])]
  | (k0, cs) :: rest =>
    if k0 == k then (k0, cs ++ [c]) :: rest
    else (k0, cs) :: insertByApp rest k c

/-- The grouping half of `_add_app_menus`' loop: non-context commands
bucketed by app display name. -/
def commandsByApp (items : List AppCommand) :
    List (String × List AppCommand) :=
  items.foldl (fun m c =>
    if getType c == "context_menu" then m
    else insertByApp m (appGroupName c) c) []

/-- Dict lookup `commands_by_app[app_name]` (keys are unique by
construction; an absent key yields `[]` here where Python would raise). -/
def lookupApp (m : List (String × List AppCommand)) (k : String) :
    List AppCommand :=
  ((m.find? (fun kv => kv.1 == k)).map Prod.snd).getD []

/-- `MenuGenerator._add_commands_by_app_to_menu`: iterate the group keys
in sorted order; a group with more than one command becomes a submenu
holding all its commands sorted by name (favourites included); a
single-command group is attached directly to the root unless it is a
favourite. -/
def _add_commands_by_app_to_menu (root : List MenuAction)
    (m : List (String × List AppCommand)) : List MenuAction :=
  (sortBy id (m.map Prod.fst)).foldl (fun r k =>
    match lookupApp m k with
    | [] => r
    | [c] => if c.favourite then r else add_command_to_menu c r
    | cs => r ++ [MenuAction.submenu k
        ((sortBy AppCommand.name cs).foldl
          (fun acc c => add_command_to_menu c acc) [])]) root

/-- `MenuGenerator._add_app_menus`. -/
def _add_app_menus (root : List MenuAction) (items : List AppCommand) :
    List MenuAction :=
  _add_commands_by_app_to_menu (addContextCommands root items)
    (commandsByApp items)

/-- `MenuGenerator.setup_menu_items`: context submenu, divider,
favourites, divider, then the per-app section. -/
def setup_menu_items (e : EngineModel) : List MenuAction :=
  let root0 : List MenuAction :=
    [MenuAction.submenu e.contextName (contextMenuActions e),
     MenuAction.divider]
  let st := addFavourites e root0 (buildMenuItems e.commands)
  _add_app_menus (st.1 ++ [MenuAction.divider]) st.2

/-! Sanity checks on a small engine. -/

/-- A two-command engine whose app `appX` owns both commands and whose
favourites setting promotes command `A`. -/
def engTwo : EngineModel :=
  ⟨[("A", ⟨1, ⟨some ⟨"XDisp", 1⟩, none, none⟩⟩),
    ("B", ⟨2, ⟨some ⟨"XDisp", 1⟩, none, none⟩⟩)],
   [("appX", 1)],
   [⟨"appX", "A"⟩],
   "ctx", false⟩

example :
    setup_menu_items engTwo
      = [MenuAction.submenu "ctx"
           [MenuAction.leaf "Jump to ShotGrid" 0, MenuAction.divider],
         MenuAction.divider,
         MenuAction.leaf "A" 1,
         MenuAction.divider,
         MenuAction.submenu "XDisp"
           [MenuAction.leaf "A" 1, MenuAction.leaf "B" 2]] := rfl

/-! ### Properties of the stable sort -/

theorem charListLe_cons (a b : Char) (as bs : List Char) :
    charListLe (a :: as) (b :: bs)
      = if a.toNat < b.toNat then true
        else if b.toNat < a.toNat then false
        else charListLe as bs := rfl

theorem charListLe_total : ∀ x y : List Char,
    charListLe x y = true ∨ charListLe y x = true := by
  intro x
  induction x with
  | nil => intro y; left; rfl
  | cons a as ih =>
    intro y
    cases y with
    | nil => right; rfl
    | cons b bs =>
      rw [charListLe_cons, charListLe_cons]
      by_cases h1 : a.toNat < b.toNat
      · left; rw [if_pos h1]
      · by_cases h2 : b.toNat < a.toNat
        · right; rw [if_pos h2]
        · rw [if_neg h1, if_neg h2, if_neg h2, if_neg h1]
          exact ih bs

theorem charListLe_trans : ∀ x y z : List Char,
    charListLe x y = true → charListLe y z = true → charListLe x z = true := by
  intro x
  induction x with
  | nil => intro y z _ _; rfl
  | cons a as ih =>
    intro y z h1 h2
    cases y with
    | nil => exact absurd h1 (by simp [charListLe])
    | cons b bs =>
      cases z with
      | nil => exact absurd h2 (by simp [charListLe])
      | cons c cs =>
        rw [charListLe_cons] at h1 h2 ⊢
        by_cases hab : a.toNat < b.toNat
        · by_cases hbc : b.toNat < c.toNat
          · rw [if_pos (by omega)]
          · by_cases hcb : c.toNat < b.toNat
            · rw [if_neg hbc, if_pos hcb] at h2; simp at h2
            · rw [if_pos (by omega)]
        · by_cases hba : b.toNat < a.toNat
          · rw [if_neg hab, if_pos hba] at h1; simp at h1
          · rw [if_neg hab, if_neg hba] at h1
            by_cases hbc : b.toNat < c.toNat
            · rw [if_pos (by omega)]
            · by_cases hcb : c.toNat < b.toNat
              · rw [if_neg hbc, if_pos hcb] at h2; simp at h2
              · rw [if_neg hbc, if_neg hcb] at h2
                rw [if_neg (by omega), if_neg (by omega)]
                exact ih bs cs h1 h2

theorem pyStrLe_total (a b : String) :
    pyStrLe a b = true ∨ pyStrLe b a = true :=
  charListLe_total a.toList b.toList

theorem pyStrLe_trans {a b c : String} (h1 : pyStrLe a b = true)
    (h2 : pyStrLe b c = true) : pyStrLe a c = true :=
  charListLe_trans a.toList b.toList c.toList h1 h2

theorem insertSortedBy_cons {α : Type} (key : α → String) (c d : α)
    (ds : List α) :
    insertSortedBy key c (d :: ds)
      = if pyStrLe (key c) (key d) then c :: d :: ds
        else d :: insertSortedBy key c ds := rfl

theorem insertSortedBy_perm {α : Type} (key : α → String) (c : α) :
    ∀ l : List α, (insertSortedBy key c l).Perm (c :: l) := by
  intro l
  induction l with
  | nil => exact List.Perm.refl _
  | cons d ds ih =>
    rw [insertSortedBy_cons]
    by_cases h : pyStrLe (key c) (key d) = true
    · rw [if_pos h]
    · rw [if_neg h]
      exact (ih.cons d).trans (List.Perm.swap c d ds)

theorem sortBy_perm {α : Type} (key : α → String) :
    ∀ l : List α, (sortBy key l).Perm l := by
  intro l
  induction l with
  | nil => exact List.Perm.refl _
  | cons c cs ih =>
    exact (insertSortedBy_perm key c (sortBy key cs)).trans (ih.cons c)

theorem insertSortedBy_pairwise {α : Type} (key : α → String) (c : α)
    {l : List α}
    (hl : l.Pairwise (fun a b => pyStrLe (key a) (key b) = true)) :
    (insertSortedBy key c l).Pairwise
      (fun a b => pyStrLe (key a) (key b) = true) := by
  induction l with
  | nil => simp [insertSortedBy]
  | cons d ds ih =>
    rw [List.pairwise_cons] at hl
    rw [insertSortedBy_cons]
    by_cases h : pyStrLe (key c) (key d) = true
    · rw [if_pos h]
      refine List.pairwise_cons.mpr ⟨?_, List.pairwise_cons.mpr hl⟩
      intro x hx
      rcases List.mem_cons.mp hx with he | hx'
      · exact he ▸ h
      · exact pyStrLe_trans h (hl.1 x hx')
    · rw [if_neg h]
      have hdc : pyStrLe (key d) (key c) = true :=
        (pyStrLe_total (key c) (key d)).resolve_left h
      refine List.pairwise_cons.mpr ⟨?_, ih hl.2⟩
      intro x hx
      have hx2 := (insertSortedBy_perm key c ds).mem_iff.mp hx
      rcases List.mem_cons.mp hx2 with he | hx'
      · exact he ▸ hdc
      · exact hl.1 x hx'

theorem sortBy_pairwise {α : Type} (key : α → String) :
    ∀ l : List α,
      (sortBy key l).Pairwise (fun a b => pyStrLe (key a) (key b) = true) := by
  intro l
  induction l with
  | nil => exact List.Pairwise.nil
  | cons c cs ih => exact insertSortedBy_pairwise key c ih

/-! ### Claim C4 -/

/-- C4: `setup_menu_items`' build step turns the engine's command mapping
into a list of `AppCommand`s sorted lexicographically by name, in
bijection with the input entries (nothing added or dropped, projecting an
output command back to its `(name, details)` entry yields a permutation
of the input), and every built command starts non-favourite.  The builder
is a pure function of the input, so it has no side effects on it. -/
theorem claim_C4 :
    ∀ cmds : List (String × CmdDetails),
      (buildMenuItems cmds).Pairwise (fun a b => pyStrLe a.name b.name = true)
      ∧ ((buildMenuItems cmds).map
          (fun c => (c.name, CmdDetails.mk c.callback c.properties))).Perm cmds
      ∧ ∀ c ∈ buildMenuItems cmds, c.favourite = false := by
  intro cmds
  refine ⟨sortBy_pairwise AppCommand.name _, ?_, ?_⟩
  · have hperm := (sortBy_perm AppCommand.name
      (cmds.map (fun p => AppCommand.mk p.1 p.2.properties p.2.callback false))).map
      (fun c => (c.name, CmdDetails.mk c.callback c.properties))
    have hid : (cmds.map
        (fun p => AppCommand.mk p.1 p.2.properties p.2.callback false)).map
          (fun c => (c.name, CmdDetails.mk c.callback c.properties)) = cmds := by
      rw [List.map_map]
      have hfun : ((fun c : AppCommand => (c.name, CmdDetails.mk c.callback c.properties))
          ∘ (fun p : String × CmdDetails =>
              AppCommand.mk p.1 p.2.properties p.2.callback false))
          = id := by
        funext p
        rfl
      rw [hfun, List.map_id]
    refine hperm.trans ?_
    rw [hid]
  · intro c hc
    have hmem := (sortBy_perm AppCommand.name _).mem_iff.mp hc
    obtain ⟨p, _, hp⟩ := List.mem_map.mp hmem
    rw [← hp]

/-- Witness for C4 on a concrete two-command mapping (deliberately given
out of name order). -/
theorem claim_C4_witness :
    ((buildMenuItems [("B", ⟨2, ⟨none, none, none⟩⟩),
        ("A", ⟨1, ⟨none, none, none⟩⟩)]).Pairwise
      (fun a b => pyStrLe a.name b.name = true))
    ∧ (((buildMenuItems [("B", ⟨2, ⟨none, none, none⟩⟩),
          ("A", ⟨1, ⟨none, none, none⟩⟩)]).map
        (fun c => (c.name, CmdDetails.mk c.callback c.properties))).Perm
        [("B", ⟨2, ⟨none, none, none⟩⟩), ("A", ⟨1, ⟨none, none, none⟩⟩)])
    ∧ (AppCommand.mk "A" ⟨none, none, none⟩ 1 false).favourite = false :=
  ⟨(claim_C4 _).1, (claim_C4 _).2.1,
    (claim_C4 [("B", ⟨2, ⟨none, none, none⟩⟩),
      ("A", ⟨1, ⟨none, none, none⟩⟩)]).2.2 _ (by decide)⟩

/-! ### Claim C6: the favourites pass -/

theorem favStep_match {apps : List (String × Nat)} {fav : Fav}
    {st : List MenuAction × List AppCommand} {cmd : AppCommand}
    (h : matchesFav apps fav cmd = true) :
    favStep apps fav st cmd
      = (add_command_to_menu cmd st.1, st.2 ++ [markFavourite cmd]) := by
  rw [favStep, if_pos h]

theorem favStep_no_match {apps : List (String × Nat)} {fav : Fav}
    {st : List MenuAction × List AppCommand} {cmd : AppCommand}
    (h : matchesFav apps fav cmd = false) :
    favStep apps fav st cmd = (st.1, st.2 ++ [cmd]) := by
  rw [favStep, if_neg (by rw [h]; simp)]

/-- The accumulated item list of the scan is just carried along: folding
from `(r, acc)` gives the same root as folding from `(r, [])`, with the
produced items appended after `acc`. -/
theorem favFold_acc (apps : List (String × Nat)) (fav : Fav) :
    ∀ (items : List AppCommand) (r : List MenuAction)
      (acc : List AppCommand),
      items.foldl (favStep apps fav) (r, acc)
        = ((items.foldl (favStep apps fav) (r, [])).1,
            acc ++ (items.foldl (favStep apps fav) (r, [])).2) := by
  intro items
  induction items with
  | nil => intro r acc; simp
  | cons c rest ih =>
    intro r acc
    rw [List.foldl_cons, List.foldl_cons]
    cases hm : matchesFav apps fav c with
    | true =>
      rw [favStep_match hm, favStep_match hm]
      rw [ih (add_command_to_menu c r) (acc ++ [markFavourite c]),
        ih (add_command_to_menu c r) ([] ++ [markFavourite c])]
      simp
    | false =>
      rw [favStep_no_match hm, favStep_no_match hm]
      rw [ih r (acc ++ [c]), ih r ([] ++ [c])]
      simp

/-- A scan over items none of which match changes nothing. -/
theorem favFold_no_match {apps : List (String × Nat)} {fav : Fav} :
    ∀ {items : List AppCommand},
      (∀ x ∈ items, matchesFav apps fav x = false) →
      ∀ (r : List MenuAction) (acc : List AppCommand),
        items.foldl (favStep apps fav) (r, acc) = (r, acc ++ items) := by
  intro items
  induction items with
  | nil => intro _ r acc; simp
  | cons c rest ih =>
    intro h r acc
    rw [List.foldl_cons,
      favStep_no_match (h c (List.mem_cons_self c rest)),
      ih (fun x hx => h x (List.mem_cons_of_mem c hx)) r (acc ++ [c])]
    simp

/-- C6: for every favourite descriptor, the favourites pass attaches the
first (and, names being distinct, only) command whose owning app-instance
name and command name both match, marking its favourite flag — or, when
no command matches, performs no promotion at all.  The embedded pass is a
total function: it never raises. -/
theorem claim_C6 :
    ∀ (apps : List (String × Nat)) (fav : Fav) (root : List MenuAction)
      (items : List AppCommand),
      (items.map AppCommand.name).Nodup →
      _add_favourite apps fav (root, items)
        = match items.find? (matchesFav apps fav) with
          | none => (root, items)
          | some c =>
            (add_command_to_menu c root,
             items.map (fun x =>
               if matchesFav apps fav x then markFavourite x else x)) := by
  intro apps fav root items
  induction items generalizing root with
  | nil => intro _; rfl
  | cons c rest ih =>
    intro hnd
    rw [List.map_cons] at hnd
    show (c :: rest).foldl (favStep apps fav) (root, []) = _
    rw [List.foldl_cons]
    cases hm : matchesFav apps fav c with
    | true =>
      have hname : c.name = fav.name := by
        have h2 := (Bool.and_eq_true _ _).mp hm
        simpa using h2.2
      have hrest : ∀ x ∈ rest, matchesFav apps fav x = false := by
        intro x hx
        cases hmx : matchesFav apps fav x with
        | false => rfl
        | true =>
          have hxname : x.name = fav.name := by
            have h2 := (Bool.and_eq_true _ _).mp hmx
            simpa using h2.2
          have hcn : x.name = c.name := hxname.trans hname.symm
          have hmem : c.name ∈ rest.map AppCommand.name :=
            hcn ▸ List.mem_map_of_mem AppCommand.name hx
          exact absurd hmem (List.nodup_cons.mp hnd).1
      rw [favStep_match hm, favFold_no_match hrest]
      rw [List.find?_cons_of_pos _ hm]
      have hmaprest : rest.map (fun x =>
          if matchesFav apps fav x then markFavourite x else x) = rest := by
        have h2 : rest.map (fun x =>
            if matchesFav apps fav x then markFavourite x else x)
            = rest.map id :=
          List.map_congr_left (fun x hx => by rw [hrest x hx]; simp)
        rw [h2, List.map_id]
      rw [List.map_cons, hm]
      simp [hmaprest]
    | false =>
      rw [favStep_no_match hm, List.find?_cons_of_neg _ (by rw [hm]; simp)]
      simp only [List.nil_append]
      rw [favFold_acc apps fav rest root [c]]
      have ihr : rest.foldl (favStep apps fav) (root, [])
          = (match rest.find? (matchesFav apps fav) with
             | none => (root, rest)
             | some c2 =>
               (add_command_to_menu c2 root,
                rest.map (fun x =>
                  if matchesFav apps fav x then markFavourite x else x))) :=
        ih root (List.nodup_cons.mp hnd).2
      cases hf : rest.find? (matchesFav apps fav) with
      | none =>
        rw [hf] at ihr
        rw [ihr]
        simp
      | some c2 =>
        rw [hf] at ihr
        rw [ihr, List.map_cons, hm]
        simp

/-- Witness for C6: a favourite descriptor matching the one registered
command attaches it at the root and marks it. -/
theorem claim_C6_witness :
    _add_favourite [("tk-multi-publish2", 5)]
      ⟨"tk-multi-publish2", "Publish The Scene"⟩
      ([], [⟨"Publish The Scene", ⟨some ⟨"Publisher", 5⟩, none, none⟩, 9, false⟩])
      = ([MenuAction.leaf "Publish The Scene" 9],
         [⟨"Publish The Scene", ⟨some ⟨"Publisher", 5⟩, none, none⟩, 9, true⟩]) :=
  claim_C6 _ _ _ _ (by decide)

/-! ### Claims C5 and C7: nested menu paths -/

/-- A leaf with the given label and callback sits at the end of the given
submenu-label path inside the menu. -/
def menuHasAtPath : List String → String → Nat → List MenuAction → Prop
  | [], lbl, cb, menu => MenuAction.leaf lbl cb ∈ menu
  | s :: rest, lbl, cb, menu =>
    ∃ acts, MenuAction.submenu s acts ∈ menu ∧ menuHasAtPath rest lbl cb acts

theorem addToMenu_cons (label : String) {parts : List String}
    (hne : parts ≠ []) (cb : Nat) (menu : List MenuAction) :
    addToMenu (label :: parts) cb menu
      = match findSubMenu menu label with
        | some acts => setFirstSub label (addToMenu parts cb acts) menu
        | none => menu ++ [MenuAction.submenu label (addToMenu parts cb [])] := by
  cases parts with
  | nil => exact absurd rfl hne
  | cons n rest => rfl

theorem setFirstSub_cons (label : String) (newActs : List MenuAction)
    (a : MenuAction) (rest : List MenuAction) :
    setFirstSub label newActs (a :: rest)
      = if actionText a == label then
          (match a with
            | MenuAction.submenu l _ => MenuAction.submenu l newActs
            | other => other) :: rest
        else a :: setFirstSub label newActs rest := rfl

theorem findSubMenu_none {menu : List MenuAction} {label : String}
    (h : ∀ a ∈ menu, actionText a ≠ label) :
    findSubMenu menu label = none := by
  rw [findSubMenu, List.find?_eq_none.mpr (fun a ha => by simpa using h a ha)]

theorem setFirstSub_mem :
    ∀ {menu : List MenuAction} {label : String} {acts : List MenuAction}
      (newActs : List MenuAction),
      findSubMenu menu label = some acts →
      MenuAction.submenu label newActs ∈ setFirstSub label newActs menu := by
  intro menu
  induction menu with
  | nil =>
    intro label acts newActs h
    simp [findSubMenu] at h
  | cons a rest ih =>
    intro label acts newActs h
    rw [findSubMenu] at h
    cases hp : (actionText a == label) with
    | true =>
      have hstep : List.find? (fun x => actionText x == label) (a :: rest)
          = some a := by
        rw [List.find?_cons_of_pos]
        exact hp
      rw [hstep] at h
      cases a with
      | divider => simp at h
      | leaf l cb => simp at h
      | submenu l as =>
        have hl : l = label := by simpa [actionText] using hp
        rw [setFirstSub_cons, if_pos hp]
        exact hl ▸ List.mem_cons_self _ _
    | false =>
      have hstep : List.find? (fun x => actionText x == label) (a :: rest)
          = List.find? (fun x => actionText x == label) rest := by
        rw [List.find?_cons_of_neg]
        rw [hp]
        simp
      rw [hstep] at h
      rw [setFirstSub_cons, if_neg (by rw [hp]; simp)]
      exact List.mem_cons_of_mem a (ih newActs h)

theorem setFirstSub_append {pre : List MenuAction} {label : String}
    (h : ∀ a ∈ pre, actionText a ≠ label) (acts newActs : List MenuAction) :
    setFirstSub label newActs (pre ++ [MenuAction.submenu label acts])
      = pre ++ [MenuAction.submenu label newActs] := by
  induction pre with
  | nil =>
    rw [List.nil_append, setFirstSub_cons, if_pos (by simp [actionText])]
    rfl
  | cons a pre ih =>
    rw [List.cons_append, setFirstSub_cons,
      if_neg (by simpa using h a (List.mem_cons_self a pre)),
      ih (fun x hx => h x (List.mem_cons_of_mem a hx))]
    rfl

/-- Splitting a command name into `N` segments attaches the leaf for the
final segment beneath the `N-1` intermediate submenu labels: a path of
submenus labelled by the leading segments leads to the leaf, whatever the
starting menu. -/
theorem addToMenu_path :
    ∀ (ps : List String) (lbl : String) (cb : Nat) (menu : List MenuAction),
      menuHasAtPath ps lbl cb (addToMenu (ps ++ [lbl]) cb menu) := by
  intro ps
  induction ps with
  | nil =>
    intro lbl cb menu
    show MenuAction.leaf lbl cb ∈ menu ++ [MenuAction.leaf lbl cb]
    exact List.mem_append.mpr (Or.inr (List.mem_singleton.mpr rfl))
  | cons s ps' ih =>
    intro lbl cb menu
    rw [List.cons_append, addToMenu_cons s (by simp) cb menu]
    cases hf : findSubMenu menu s with
    | none =>
      exact ⟨addToMenu (ps' ++ [lbl]) cb [],
        List.mem_append.mpr (Or.inr (List.mem_singleton.mpr rfl)),
        ih lbl cb []⟩
    | some acts =>
      exact ⟨addToMenu (ps' ++ [lbl]) cb acts,
        setFirstSub_mem _ hf, ih lbl cb acts⟩

/-- Two multi-segment command names sharing their first segment, attached
in sequence to a menu with no action already carrying that label, share a
single submenu node for the common segment. -/
theorem addToMenu_shared_prefix :
    ∀ (menu : List MenuAction) (label : String) (p1 p2 : List String)
      (c1 c2 : Nat),
      p1 ≠ [] → p2 ≠ [] →
      (∀ a ∈ menu, actionText a ≠ label) →
      addToMenu (label :: p2) c2 (addToMenu (label :: p1) c1 menu)
        = menu ++ [MenuAction.submenu label
            (addToMenu p2 c2 (addToMenu p1 c1 []))] := by
  intro menu label p1 p2 c1 c2 h1 h2 hno
  rw [addToMenu_cons label h1 c1 menu, findSubMenu_none hno]
  show addToMenu (label :: p2) c2
      (menu ++ [MenuAction.submenu label (addToMenu p1 c1 [])]) = _
  rw [addToMenu_cons label h2 c2 _]
  have hfind : findSubMenu
      (menu ++ [MenuAction.submenu label (addToMenu p1 c1 [])]) label
      = some (addToMenu p1 c1 []) := by
    rw [findSubMenu, List.find?_append,
      List.find?_eq_none.mpr (fun a ha => by simpa using hno a ha)]
    rw [List.find?_cons_of_pos _ (by simp [actionText])]
    rfl
  rw [hfind]
  show setFirstSub label (addToMenu p2 c2 (addToMenu p1 c1 []))
      (menu ++ [MenuAction.submenu label (addToMenu p1 c1 [])]) = _
  rw [setFirstSub_append hno]

/-- C5 counterexample: the commands `A`, `A/B`, `A/C` added in (sorted)
order.  The leaf action `A` shadows the label lookup — `_find_sub_menu_item`
returns the first text match, whose `menu()` is `None` for a leaf — so
`A/B` and `A/C` each create their own submenu labelled `A`: the shared
prefix is not reused and two duplicate submenus result. -/
theorem claim_C5_counterexample :
    addToMenu (pySplit "A/C") 3
        (addToMenu (pySplit "A/B") 2 (addToMenu (pySplit "A") 1 []))
      = [MenuAction.leaf "A" 1,
         MenuAction.submenu "A" [MenuAction.leaf "B" 2],
         MenuAction.submenu "A" [MenuAction.leaf "C" 3]] := rfl

/-- C5 (amended): a command name splitting into `N` segments yields a
leaf at depth `N` beneath the `N-1` intermediate submenu labels; and two
command names sharing an identical first segment reuse a single submenu
node for it, provided no action already in the parent menu carries that
label (a pre-existing leaf with the label shadows the lookup and forces a
duplicate submenu instead). -/
theorem claim_C5_amended :
    (∀ (ps : List String) (lbl : String) (cb : Nat) (menu : List MenuAction),
      menuHasAtPath ps lbl cb (addToMenu (ps ++ [lbl]) cb menu))
    ∧ (∀ (menu : List MenuAction) (label : String) (p1 p2 : List String)
        (c1 c2 : Nat),
        p1 ≠ [] → p2 ≠ [] →
        (∀ a ∈ menu, actionText a ≠ label) →
        addToMenu (label :: p2) c2 (addToMenu (label :: p1) c1 menu)
          = menu ++ [MenuAction.submenu label
              (addToMenu p2 c2 (addToMenu p1 c1 []))]) :=
  ⟨addToMenu_path, addToMenu_shared_prefix⟩

/-- Witness for C5 (amended): `Publish/Textures` then `Publish/Model`
into an empty menu share one `Publish` submenu. -/
theorem claim_C5_amended_witness :
    menuHasAtPath ["Publish"] "Textures" 4
      (addToMenu (["Publish"] ++ ["Textures"]) 4 [])
    ∧ addToMenu ("Publish" :: ["Model"]) 5
        (addToMenu ("Publish" :: ["Textures"]) 4 [])
      = [] ++ [MenuAction.submenu "Publish"
          (addToMenu ["Model"] 5 (addToMenu ["Textures"] 4 []))] :=
  ⟨claim_C5_amended.1 ["Publish"] "Textures" 4 [],
   claim_C5_amended.2 [] "Publish" ["Textures"] ["Model"] 4 5
     (by simp) (by simp) (by simp)⟩

/-- C7: evaluating the builder at the failing input.  An empty command
name does not make the builder fail: Python's `"".split("/")` is `[""]`,
so a leaf action with empty label is silently appended — the malformed
tree the specification says should be rejected. -/
theorem claim_C7_divergence :
    pySplit "" = [""]
    ∧ addToMenu (pySplit "") 7 [] = [MenuAction.leaf "" 7] :=
  ⟨rfl, rfl⟩

/-! ### Claim C1: favourites versus the module-grouping pass -/

/-- C1 counterexample: `engTwo` has two commands of the same app, `A`
promoted as a favourite.  The module-grouping pass puts the whole group —
favourite included — under the app submenu, so the leaf `A` appears twice
in the built menu: once at the root (favourites section) and once under
the `XDisp` submenu.  The favourite is added a second time by the
module-grouping pass. -/
theorem claim_C1_counterexample :
    setup_menu_items engTwo
      = [MenuAction.submenu "ctx"
           [MenuAction.leaf "Jump to ShotGrid" 0, MenuAction.divider],
         MenuAction.divider,
         MenuAction.leaf "A" 1,
         MenuAction.divider,
         MenuAction.submenu "XDisp"
           [MenuAction.leaf "A" 1, MenuAction.leaf "B" 2]]
    ∧ menuHasAtPath [] "A" 1 (setup_menu_items engTwo)
    ∧ menuHasAtPath ["XDisp"] "A" 1 (setup_menu_items engTwo) :=
  ⟨rfl,
   show MenuAction.leaf "A" 1 ∈ setup_menu_items engTwo from by
     show MenuAction.leaf "A" 1 ∈
       [MenuAction.submenu "ctx"
          [MenuAction.leaf "Jump to ShotGrid" 0, MenuAction.divider],
        MenuAction.divider,
        MenuAction.leaf "A" 1,
        MenuAction.divider,
        MenuAction.submenu "XDisp"
          [MenuAction.leaf "A" 1, MenuAction.leaf "B" 2]]
     simp,
   ⟨[MenuAction.leaf "A" 1, MenuAction.leaf "B" 2],
    by
      show MenuAction.submenu "XDisp"
          [MenuAction.leaf "A" 1, MenuAction.leaf "B" 2] ∈
        [MenuAction.submenu "ctx"
           [MenuAction.leaf "Jump to ShotGrid" 0, MenuAction.divider],
         MenuAction.divider,
         MenuAction.leaf "A" 1,
         MenuAction.divider,
         MenuAction.submenu "XDisp"
           [MenuAction.leaf "A" 1, MenuAction.leaf "B" 2]]
      simp,
    by
      show MenuAction.leaf "A" 1 ∈
        [MenuAction.leaf "A" 1, MenuAction.leaf "B" 2]
      simp⟩⟩

theorem add_command_single {c : AppCommand} (h : pySplit c.name = [c.name])
    (menu : List MenuAction) :
    add_command_to_menu c menu = menu ++ [MenuAction.leaf c.name c.callback] := by
  rw [add_command_to_menu, h]
  rfl

theorem foldl_add_single :
    ∀ (cs : List AppCommand) (m0 : List MenuAction),
      (∀ c ∈ cs, pySplit c.name = [c.name]) →
      cs.foldl (fun acc c => add_command_to_menu c acc) m0
        = m0 ++ cs.map (fun c => MenuAction.leaf c.name c.callback) := by
  intro cs
  induction cs with
  | nil => intro m0 _; simp
  | cons c rest ih =>
    intro m0 h
    rw [List.foldl_cons, add_command_single (h c (List.mem_cons_self c rest)),
      ih _ (fun x hx => h x (List.mem_cons_of_mem c hx))]
    simp

/-- What the module-grouping pass contributes for one group key: nothing
for an empty or favourite-singleton group, a direct leaf for an ordinary
singleton group, and a submenu with all commands (favourites included,
sorted by name) for a group of two or more. -/
def expectedGroupActions (m : List (String × List AppCommand)) (k : String) :
    List MenuAction :=
  match lookupApp m k with
  | [] => []
  | [c] => if c.favourite then [] else [MenuAction.leaf c.name c.callback]
  | cs => [MenuAction.submenu k
      ((sortBy AppCommand.name cs).map
        (fun c => MenuAction.leaf c.name c.callback))]

theorem lookupApp_mem {m : List (String × List AppCommand)} {k : String}
    {c : AppCommand} (hc : c ∈ lookupApp m k) : ∃ g ∈ m, c ∈ g.2 := by
  rw [lookupApp] at hc
  cases hf : m.find? (fun kv => kv.1 == k) with
  | none => rw [hf] at hc; simp at hc
  | some kv =>
    rw [hf] at hc
    exact ⟨kv, List.mem_of_find?_eq_some hf, by simpa using hc⟩

theorem addApp_step {m : List (String × List AppCommand)}
    (hs : ∀ g ∈ m, ∀ c ∈ g.2, pySplit c.name = [c.name])
    (r : List MenuAction) (k : String) :
    (match lookupApp m k with
      | [] => r
      | [c] => if c.favourite then r else add_command_to_menu c r
      | cs => r ++ [MenuAction.submenu k
          ((sortBy AppCommand.name cs).foldl
            (fun acc c => add_command_to_menu c acc) [])])
      = r ++ expectedGroupActions m k := by
  have hlk : ∀ c ∈ lookupApp m k, pySplit c.name = [c.name] := by
    intro c hc
    obtain ⟨g, hg, hcg⟩ := lookupApp_mem hc
    exact hs g hg c hcg
  rw [expectedGroupActions]
  cases hl : lookupApp m k with
  | nil => simp
  | cons c cs =>
    cases cs with
    | nil =>
      show (if c.favourite = true then r else add_command_to_menu c r)
        = r ++ (if c.favourite = true then []
                else [MenuAction.leaf c.name c.callback])
      by_cases hf : c.favourite = true
      · rw [if_pos hf, if_pos hf]
        simp
      · rw [if_neg hf, if_neg hf,
          add_command_single (hlk c (by rw [hl]; exact List.mem_cons_self c []))]
    | cons c2 cs2 =>
      show r ++ [MenuAction.submenu k
          ((sortBy AppCommand.name (c :: c2 :: cs2)).foldl
            (fun acc c => add_command_to_menu c acc) [])]
        = r ++ [MenuAction.submenu k
            ((sortBy AppCommand.name (c :: c2 :: cs2)).map
              (fun c => MenuAction.leaf c.name c.callback))]
      rw [foldl_add_single _ _ (fun x hx =>
        hlk x (by
          rw [hl]
          exact (sortBy_perm AppCommand.name (c :: c2 :: cs2)).mem_iff.mp hx))]
      rw [List.nil_append]

theorem foldl_step_append {E : String → List MenuAction}
    {step : List MenuAction → String → List MenuAction}
    (hstep : ∀ r k, step r k = r ++ E k) :
    ∀ (keys : List String) (r : List MenuAction),
      keys.foldl step r = r ++ (keys.map E).flatten := by
  intro keys
  induction keys with
  | nil => intro r; simp
  | cons k ks ih =>
    intro r
    rw [List.foldl_cons, hstep, ih]
    simp

/-- C1 (amended): on groups whose command names contain no path
separator, the module-grouping pass appends, for each group key in sorted
order: nothing when the group is a favourite singleton (the favourite is
not re-added); a direct leaf for an ordinary singleton; and a submenu
containing every command of the group — favourites included — when the
group has more than one command.  So a favourite in a multi-command group
is added a second time by this pass, under the group's submenu rather
than directly under the root. -/
theorem claim_C1_amended :
    ∀ (root : List MenuAction) (m : List (String × List AppCommand)),
      (∀ g ∈ m, ∀ c ∈ g.2, pySplit c.name = [c.name]) →
      _add_commands_by_app_to_menu root m
        = root ++ ((sortBy id (m.map Prod.fst)).map
            (expectedGroupActions m)).flatten := by
  intro root m hs
  rw [_add_commands_by_app_to_menu]
  exact foldl_step_append (fun r k => addApp_step hs r k) _ root

/-- Witness for C1 (amended): a two-command group containing a favourite,
and a favourite-singleton group. -/
theorem claim_C1_amended_witness :
    _add_commands_by_app_to_menu []
        [("XDisp",
          [AppCommand.mk "A" ⟨some ⟨"XDisp", 1⟩, none, none⟩ 1 true,
           AppCommand.mk "B" ⟨some ⟨"XDisp", 1⟩, none, none⟩ 2 false])]
      = [] ++ ((sortBy id
          ([("XDisp",
            [AppCommand.mk "A" ⟨some ⟨"XDisp", 1⟩, none, none⟩ 1 true,
             AppCommand.mk "B" ⟨some ⟨"XDisp", 1⟩, none, none⟩ 2 false])].map
            Prod.fst)).map
          (expectedGroupActions
            [("XDisp",
              [AppCommand.mk "A" ⟨some ⟨"XDisp", 1⟩, none, none⟩ 1 true,
               AppCommand.mk "B" ⟨some ⟨"XDisp", 1⟩, none, none⟩ 2 false])])).flatten
    ∧ _add_commands_by_app_to_menu []
        [("Solo", [AppCommand.mk "S" ⟨some ⟨"Solo", 2⟩, none, none⟩ 7 true])]
      = [] ++ ((sortBy id
          ([("Solo",
            [AppCommand.mk "S" ⟨some ⟨"Solo", 2⟩, none, none⟩ 7 true])].map
            Prod.fst)).map
          (expectedGroupActions
            [("Solo",
              [AppCommand.mk "S" ⟨some ⟨"Solo", 2⟩, none, none⟩ 7 true])])).flatten :=
  ⟨claim_C1_amended _ _ (by decide), claim_C1_amended _ _ (by decide)⟩

/-! ### Claim C3: context-menu commands -/

theorem insertByApp_cons (kv : String × List AppCommand)
    (rest : List (String × List AppCommand)) (k : String) (c : AppCommand) :
    insertByApp (kv :: rest) k c
      = if kv.1 == k then (kv.1, kv.2 ++ [c]) :: rest
        else (kv.1, kv.2) :: insertByApp rest k c := rfl

/-- Every member of every group after an insertion was already a member
of some group, or is the inserted command. -/
theorem insertByApp_inv {P : AppCommand → Prop} :
    ∀ {m : List (String × List AppCommand)} {k : String} {c : AppCommand},
      (∀ g ∈ m, ∀ x ∈ g.2, P x) → P c →
      ∀ g ∈ insertByApp m k c, ∀ x ∈ g.2, P x := by
  intro m
  induction m with
  | nil =>
    intro k c _ hc g hg x hx
    rcases List.mem_singleton.mp hg with rfl
    rcases List.mem_singleton.mp hx with rfl
    exact hc
  | cons kv rest ih =>
    intro k c hm hc g hg x hx
    rw [insertByApp_cons] at hg
    by_cases hb : (kv.1 == k) = true
    · rw [if_pos hb] at hg
      rcases List.mem_cons.mp hg with he | hg'
      · subst he
        rcases List.mem_append.mp hx with hx' | hx'
        · exact hm kv (List.mem_cons_self kv rest) x hx'
        · rcases List.mem_singleton.mp hx' with rfl
          exact hc
      · exact hm g (List.mem_cons_of_mem kv hg') x hx
    · rw [if_neg hb] at hg
      rcases List.mem_cons.mp hg with he | hg'
      · subst he
        exact hm kv (List.mem_cons_self kv rest) x hx
      · exact ih (fun g0 hg0 => hm g0 (List.mem_cons_of_mem kv hg0)) hc g hg' x hx

/-- The grouping dict built by `_add_app_menus` holds no command typed
`"context_menu"`. -/
theorem commandsByApp_no_ctx :
    ∀ (items : List AppCommand),
      ∀ g ∈ commandsByApp items, ∀ c ∈ g.2,
        (getType c == "context_menu") = false := by
  have hfold : ∀ (items : List AppCommand)
      (acc : List (String × List AppCommand)),
      (∀ g ∈ acc, ∀ x ∈ g.2, (getType x == "context_menu") = false) →
      ∀ g ∈ items.foldl (fun m c =>
          if getType c == "context_menu" then m
          else insertByApp m (appGroupName c) c) acc,
        ∀ x ∈ g.2, (getType x == "context_menu") = false := by
    intro items
    induction items with
    | nil => intro acc hacc; exact hacc
    | cons i rest ih =>
      intro acc hacc
      rw [List.foldl_cons]
      by_cases ht : (getType i == "context_menu") = true
      · rw [if_pos ht]
        exact ih acc hacc
      · rw [if_neg ht]
        refine ih _ (insertByApp_inv hacc ?_)
        cases htt : (getType i == "context_menu") with
        | false => rfl
        | true => exact absurd htt ht
  intro items
  exact hfold items [] (by intro g hg; simp at hg)

theorem addToContextMenu_cons (l : String) (cacts rtail : List MenuAction)
    (cmd : AppCommand) :
    addToContextMenu (MenuAction.submenu l cacts :: rtail) cmd
      = MenuAction.submenu l (add_command_to_menu cmd cacts) :: rtail := rfl

/-- The context half of `_add_app_menus`: with separator-free command
names, the commands typed `"context_menu"` are appended, in item order,
as leaves of the context submenu (the submenu at position 0), and the
rest of the root menu is untouched. -/
theorem addContextCommands_char :
    ∀ (items : List AppCommand) (l : String) (cacts rtail : List MenuAction),
      (∀ c ∈ items, pySplit c.name = [c.name]) →
      addContextCommands (MenuAction.submenu l cacts :: rtail) items
        = MenuAction.submenu l
            (cacts ++ (items.filter
              (fun c => getType c == "context_menu")).map
                (fun c => MenuAction.leaf c.name c.callback)) :: rtail := by
  intro items
  induction items with
  | nil =>
    intro l cacts rtail _
    show MenuAction.submenu l cacts :: rtail = _
    simp
  | cons c rest ih =>
    intro l cacts rtail h
    show (c :: rest).foldl (fun r cmd =>
        if getType cmd == "context_menu" then addToContextMenu r cmd else r)
        (MenuAction.submenu l cacts :: rtail) = _
    rw [List.foldl_cons, List.filter_cons]
    by_cases ht : (getType c == "context_menu") = true
    · rw [if_pos ht, if_pos ht, addToContextMenu_cons,
        add_command_single (h c (List.mem_cons_self c rest))]
      have ihh := ih l (cacts ++ [MenuAction.leaf c.name c.callback]) rtail
        (fun x hx => h x (List.mem_cons_of_mem c hx))
      rw [addContextCommands] at ihh
      rw [ihh, List.map_cons]
      simp
    · rw [if_neg ht, if_neg ht]
      have ihh := ih l cacts rtail (fun x hx => h x (List.mem_cons_of_mem c hx))
      rw [addContextCommands] at ihh
      rw [ihh]

/-- The engine with a single command typed `"context_menu"` that also
matches a favourite descriptor. -/
def engCtxFav : EngineModel :=
  ⟨[("C", ⟨3, ⟨some ⟨"XD", 1⟩, some "context_menu", none⟩⟩)],
   [("appX", 1)],
   [⟨"appX", "C"⟩],
   "ctx", false⟩

/-- Top-level leaves with a given label (no descent into submenus). -/
def topLeafCount (label : String) (menu : List MenuAction) : Nat :=
  (menu.filter (fun a => match a with
    | MenuAction.leaf l _ => l == label
    | _ => false)).length

/-- C3 counterexample: a `context_menu`-typed command matching a
favourite descriptor.  `_add_favourite` does not filter on the command
type, so the command is attached directly at the top level by the
favourites pass — and then again under the context node by
`_add_app_menus`.  The built menu has the leaf `C` once at top level,
where the claim says it must never appear. -/
theorem claim_C3_counterexample :
    setup_menu_items engCtxFav
      = [MenuAction.submenu "ctx"
           [MenuAction.leaf "Jump to ShotGrid" 0, MenuAction.divider,
            MenuAction.leaf "C" 3],
         MenuAction.divider,
         MenuAction.leaf "C" 3,
         MenuAction.divider]
    ∧ topLeafCount "C" (setup_menu_items engCtxFav) = 1 :=
  ⟨rfl, rfl⟩

/-- C3 (amended): commands typed `"context_menu"` are attached under the
context node (the submenu created in step 1) in item order and are
excluded from the module-grouping dict — but they are not excluded from
the favourites pass: a favourite descriptor matching such a command also
attaches it at the top level (see the counterexample). -/
theorem claim_C3_amended :
    (∀ (items : List AppCommand),
      ∀ g ∈ commandsByApp items, ∀ c ∈ g.2,
        (getType c == "context_menu") = false)
    ∧ (∀ (items : List AppCommand) (l : String) (cacts rtail : List MenuAction),
        (∀ c ∈ items, pySplit c.name = [c.name]) →
        addContextCommands (MenuAction.submenu l cacts :: rtail) items
          = MenuAction.submenu l
              (cacts ++ (items.filter
                (fun c => getType c == "context_menu")).map
                  (fun c => MenuAction.leaf c.name c.callback)) :: rtail) :=
  ⟨commandsByApp_no_ctx, fun items l cacts rtail h =>
    addContextCommands_char items l cacts rtail h⟩

/-- Witness for C3 (amended): one context command and one plain command. -/
theorem claim_C3_amended_witness :
    ((getType (AppCommand.mk "N" ⟨some ⟨"XD", 1⟩, none, none⟩ 2 false)
        == "context_menu") = false)
    ∧ addContextCommands
        (MenuAction.submenu "ctx" [MenuAction.divider] :: [MenuAction.divider])
        [AppCommand.mk "C" ⟨some ⟨"XD", 1⟩, some "context_menu", none⟩ 3 false,
         AppCommand.mk "N" ⟨some ⟨"XD", 1⟩, none, none⟩ 2 false]
      = MenuAction.submenu "ctx"
          ([MenuAction.divider]
            ++ ([AppCommand.mk "C" ⟨some ⟨"XD", 1⟩, some "context_menu", none⟩ 3 false,
                 AppCommand.mk "N" ⟨some ⟨"XD", 1⟩, none, none⟩ 2 false].filter
                (fun c => getType c == "context_menu")).map
                  (fun c => MenuAction.leaf c.name c.callback))
          :: [MenuAction.divider] :=
  ⟨claim_C3_amended.1
      [AppCommand.mk "N" ⟨some ⟨"XD", 1⟩, none, none⟩ 2 false]
      ("XD", [AppCommand.mk "N" ⟨some ⟨"XD", 1⟩, none, none⟩ 2 false])
      (by decide)
      (AppCommand.mk "N" ⟨some ⟨"XD", 1⟩, none, none⟩ 2 false)
      (by decide),
   claim_C3_amended.2 _ "ctx" [MenuAction.divider] [MenuAction.divider]
     (by decide)⟩

end TkSubstancePainter
